import Mathlib

/-!
Verification development for the Dispatch service (deputy-dispatch).

This file gives a shallow embedding, in Lean 4, of the parts of the
Dispatch source code that the checked claims are about:

* the staggered revision expander (`src/processors/RevisionExpander.ts`),
* the talk-page scanner (`src/processors/UserTalkPageFetcher.ts` and
  `src/util/func/countInstances.ts`),
* the deleted-revision reconstructor
  (`src/processors/UserDeletedRevisionFetcher.ts`),
* the asynchronous task engine (`src/routes/abstract/AsyncTask.ts` and
  `src/routes/abstract/AsyncTaskController.ts`),
* the site registry (`src/util/WikimediaSiteMatrix.ts`),
* the stream-coherent revision store (`src/util/RevisionStore.ts`),
* the revision HTTP controller
  (`src/routes/v1/revisions/MediaWikiRevisionController.ts`), and
* the search-talk HTTP controller (`src/routes/v1/user/UserSearchTalk.ts`).

JavaScript objects used as keyed records are embedded as association
lists; asynchronous interleavings are embedded as explicit state-passing
steps; external services (the MediaWiki API, the SQL replicas, the
`RegExp` engine of the JS runtime, the `strfnr` matcher) are parameters
of the embedded functions.
-/

namespace Dispatch

/-! ### Association-list helpers

JavaScript plain objects and `Map`s keyed by ids are embedded as
association lists with `listSet` mirroring property assignment /
`Map.prototype.set` (replace in place, otherwise append) and `listGet`
mirroring property access / `Map.prototype.get`. -/

def listGet {α β : Type} [DecidableEq α] (m : List (α × β)) (k : α) : Option β :=
  match m with
  | [] => none
  | (k0, v0) :: rest => if k0 = k then some v0 else listGet rest k

def listSet {α β : Type} [DecidableEq α] (m : List (α × β)) (k : α) (v : β) :
    List (α × β) :=
  match m with
  | [] => [(k, v)]
  | (k0, v0) :: rest =>
    if k0 = k then (k, v) :: rest else (k0, v0) :: listSet rest k v

def listKeys {α β : Type} (m : List (α × β)) : List α := m.map Prod.fst

theorem listGet_listSet_self {α β : Type} [DecidableEq α]
    (m : List (α × β)) (k : α) (v : β) : listGet (listSet m k v) k = some v := by
  induction m with
  | nil => simp [listSet, listGet]
  | cons hd tl ih =>
    obtain ⟨k0, v0⟩ := hd
    by_cases h : k0 = k
    · simp [listSet, listGet, h]
    · simp [listSet, listGet, h, ih]

theorem listGet_listSet_ne {α β : Type} [DecidableEq α]
    (m : List (α × β)) (k k' : α) (v : β) (hne : k ≠ k') :
    listGet (listSet m k v) k' = listGet m k' := by
  induction m with
  | nil => simp [listSet, listGet, hne]
  | cons hd tl ih =>
    obtain ⟨k0, v0⟩ := hd
    by_cases h : k0 = k
    · subst h
      simp [listSet, listGet, hne]
    · simp only [listSet, if_neg h, listGet]
      by_cases h' : k0 = k'
      · simp [h']
      · simp [h', ih]

theorem listGet_mem_keys {α β : Type} [DecidableEq α]
    (m : List (α × β)) (k : α) (v : β) (h : listGet m k = some v) :
    k ∈ listKeys m := by
  induction m with
  | nil => simp [listGet] at h
  | cons hd tl ih =>
    obtain ⟨k0, v0⟩ := hd
    simp only [listGet] at h
    by_cases hk : k0 = k
    · subst hk; simp [listKeys]
    · simp only [if_neg hk] at h
      have := ih h
      simp only [listKeys, List.map_cons, List.mem_cons]
      exact Or.inr (by simpa [listKeys] using this)

theorem listGet_eq_none_of_not_mem {α β : Type} [DecidableEq α]
    (m : List (α × β)) (k : α) (h : k ∉ listKeys m) : listGet m k = none := by
  induction m with
  | nil => simp [listGet]
  | cons hd tl ih =>
    obtain ⟨k0, v0⟩ := hd
    simp only [listKeys, List.map_cons, List.mem_cons] at h
    push_neg at h
    have hne : ¬k0 = k := fun hc => h.1 hc.symm
    simp [listGet, hne, ih (by simpa [listKeys] using h.2)]

theorem listGet_some_mem_values {α β : Type} [DecidableEq α]
    (m : List (α × β)) (k : α) (v : β) (h : listGet m k = some v) :
    v ∈ m.map Prod.snd := by
  induction m with
  | nil => simp [listGet] at h
  | cons hd tl ih =>
    obtain ⟨k0, v0⟩ := hd
    simp only [listGet] at h
    by_cases hk : k0 = k
    · simp only [if_pos hk, Option.some.injEq] at h
      simp [h]
    · simp only [if_neg hk] at h
      simp [ih h]

/-! ### Revision Expander (`src/processors/RevisionExpander.ts`)

The expander keeps `revisionQueue : Record<number, FakePromise<Revision>>`,
a plain JS object keyed by revision id.  `queue(revisions)` allocates one
fresh `fakePromise()` per requested id, stores it in `revisionQueue[rev]`
(overwriting any entry already present for that id), and returns the
per-id promises.  The staggered `run` drains up to `PER_BATCH = 50`
entries (JS objects iterate integer-like keys in ascending numeric order,
so the queue is embedded as an id-sorted association list), calls
`request` on the drained ids, and calls the resolver of each drained
handle whose id appears in the result.

Handles are embedded as allocation tokens (`Nat`); `nextHandle` is the
allocation counter and `resolvedHandles` is the trace of handles whose
resolver has been called.  The upstream `request` call is abstracted by
`requestFn`, returning the set of ids present in its response; the
resolved `Revision` values themselves play no role in the claims below. -/

def PER_BATCH : Nat := 50

structure ExpanderState where
  revisionQueue : List (Nat × Nat)
  nextHandle : Nat
  resolvedHandles : List Nat
  deriving DecidableEq, Repr

/-- Insertion into the id-sorted queue embedding of the JS object
`revisionQueue`: property assignment replaces the entry for an existing
integer key and otherwise inserts it in ascending numeric key order. -/
def qInsert (q : List (Nat × Nat)) (id h : Nat) : List (Nat × Nat) :=
  match q with
  | [] => [(id, h)]
  | (i0, h0) :: rest =>
    if id < i0 then (id, h) :: (i0, h0) :: rest
    else if id = i0 then (id, h) :: rest
    else (i0, h0) :: qInsert rest id h

/-- `RevisionExpander.queue`: for each requested id allocate a fresh
handle, store it in `revisionQueue[rev]`, and record it in the returned
`fakePromises` record. -/
def queueOp (revisions : List Nat) (s : ExpanderState) :
    List (Nat × Nat) × ExpanderState :=
  revisions.foldl
    (fun acc rev =>
      let h := acc.2.nextHandle
      (listSet acc.1 rev h,
       { revisionQueue := qInsert acc.2.revisionQueue rev h,
         nextHandle := acc.2.nextHandle + 1,
         resolvedHandles := acc.2.resolvedHandles }))
    ([], s)

/-- The ids a single pass of the staggered runner drains into its local
`forProcessing` map: at most `PER_BATCH` entries from the head of the
queue. -/
def runBatchIds (s : ExpanderState) : List Nat :=
  (s.revisionQueue.take PER_BATCH).map Prod.fst

/-- One pass of the staggered runner (`RevisionExpander.run`): drain up
to `PER_BATCH` entries into `forProcessing`, call `request` on those
ids, resolve the drained handle of every id present in the result, and
delete each such id from `revisionQueue`. -/
def runStep (requestFn : List Nat → List Nat) (s : ExpanderState) :
    ExpanderState :=
  let forProcessing := s.revisionQueue.take PER_BATCH
  let resolvedIds := requestFn (forProcessing.map Prod.fst)
  { revisionQueue :=
      (s.revisionQueue.drop PER_BATCH).filter (fun e => e.1 ∉ resolvedIds),
    nextHandle := s.nextHandle,
    resolvedHandles :=
      s.resolvedHandles ++ resolvedIds.filterMap (listGet forProcessing) }

inductive ExpanderOp where
  | enqueue (revisions : List Nat)
  | run
  deriving DecidableEq, Repr

/-- Execution of a sequence of expander operations (interleaved `queue`
calls and runner passes). -/
def expanderExec (requestFn : List Nat → List Nat) (s : ExpanderState) :
    List ExpanderOp → ExpanderState
  | [] => s
  | op :: rest =>
    expanderExec requestFn
      (match op with
       | .enqueue revs => (queueOp revs s).2
       | .run => runStep requestFn s)
      rest

/-- Invariant used to show that a handle evicted from the queue can never
be resolved afterwards. -/
structure HandleLost (h1 : Nat) (s : ExpanderState) : Prop where
  notInQueue : h1 ∉ s.revisionQueue.map Prod.snd
  notResolved : h1 ∉ s.resolvedHandles
  ltNext : h1 < s.nextHandle

theorem qInsert_values_subset (q : List (Nat × Nat)) (id h : Nat) :
    ∀ v ∈ (qInsert q id h).map Prod.snd, v = h ∨ v ∈ q.map Prod.snd := by
  induction q with
  | nil => simp [qInsert]
  | cons hd tl ih =>
    obtain ⟨i0, h0⟩ := hd
    intro v hv
    simp only [qInsert] at hv
    by_cases hlt : id < i0
    · simp only [if_pos hlt, List.map_cons, List.mem_cons] at hv
      rcases hv with h1 | h1 | h1
      · exact Or.inl h1
      · exact Or.inr (by simp [h1])
      · exact Or.inr (by simp [h1])
    · simp only [if_neg hlt] at hv
      by_cases heq : id = i0
      · simp only [if_pos heq, List.map_cons, List.mem_cons] at hv
        rcases hv with h1 | h1
        · exact Or.inl h1
        · exact Or.inr (by simp [h1])
      · simp only [if_neg heq, List.map_cons, List.mem_cons] at hv
        rcases hv with h1 | h1
        · exact Or.inr (by simp [h1])
        · rcases ih v h1 with h2 | h2
          · exact Or.inl h2
          · exact Or.inr (by simp [h2])

theorem handleLost_queueOp (h1 : Nat) (revs : List Nat) (s : ExpanderState)
    (hs : HandleLost h1 s) : HandleLost h1 (queueOp revs s).2 := by
  unfold queueOp
  suffices hgen : ∀ (acc : List (Nat × Nat) × ExpanderState),
      HandleLost h1 acc.2 →
      HandleLost h1 (revs.foldl (fun acc rev =>
        let h := acc.2.nextHandle
        (listSet acc.1 rev h,
         { revisionQueue := qInsert acc.2.revisionQueue rev h,
           nextHandle := acc.2.nextHandle + 1,
           resolvedHandles := acc.2.resolvedHandles })) acc).2 by
    exact hgen ([], s) hs
  induction revs with
  | nil => intro acc h; simpa using h
  | cons rev rest ih =>
    intro acc hacc
    simp only [List.foldl_cons]
    apply ih
    refine ⟨?_, hacc.notResolved, ?_⟩
    · intro hmem
      rcases qInsert_values_subset acc.2.revisionQueue rev acc.2.nextHandle
          h1 hmem with h2 | h2
      · exact absurd h2 (Nat.ne_of_lt hacc.ltNext)
      · exact hacc.notInQueue h2
    · exact Nat.lt_succ_of_lt hacc.ltNext

theorem handleLost_runStep (h1 : Nat) (requestFn : List Nat → List Nat)
    (s : ExpanderState) (hs : HandleLost h1 s) :
    HandleLost h1 (runStep requestFn s) := by
  refine ⟨?_, ?_, hs.ltNext⟩
  · intro hmem
    simp only [runStep] at hmem
    have h2 : h1 ∈ (s.revisionQueue.drop PER_BATCH).map Prod.snd := by
      rcases List.mem_map.1 hmem with ⟨e, he, hev⟩
      exact List.mem_map.2 ⟨e, (List.mem_filter.1 he).1, hev⟩
    exact hs.notInQueue
      ((List.map_subset Prod.snd (List.drop_subset _ _)) h2)
  · intro hmem
    simp only [runStep, List.mem_append] at hmem
    rcases hmem with h2 | h2
    · exact hs.notResolved h2
    · rcases List.mem_filterMap.1 h2 with ⟨id, _, hget⟩
      have h3 : h1 ∈ (s.revisionQueue.take PER_BATCH).map Prod.snd :=
        listGet_some_mem_values _ _ _ hget
      exact hs.notInQueue
        ((List.map_subset Prod.snd (List.take_subset _ _)) h3)

theorem handleLost_exec (h1 : Nat) (requestFn : List Nat → List Nat)
    (s : ExpanderState) (ops : List ExpanderOp) (hs : HandleLost h1 s) :
    HandleLost h1 (expanderExec requestFn s ops) := by
  induction ops generalizing s with
  | nil => simpa [expanderExec] using hs
  | cons op rest ih =>
    cases op with
    | enqueue revs => exact ih _ (handleLost_queueOp h1 revs s hs)
    | run => exact ih _ (handleLost_runStep h1 requestFn s hs)

theorem listGet_none_of_lt_keys (q : List (Nat × Nat)) (i : Nat)
    (h : ∀ e ∈ q, i < e.1) : listGet q i = none := by
  apply listGet_eq_none_of_not_mem
  intro hmem
  rcases List.mem_map.1 hmem with ⟨e, he, hev⟩
  exact absurd (hev ▸ h e he) (lt_irrefl i)

theorem qInsert_lookup_self (q : List (Nat × Nat)) (i h : Nat) :
    listGet (qInsert q i h) i = some h := by
  induction q with
  | nil => simp [qInsert, listGet]
  | cons hd tl ih =>
    obtain ⟨i0, h0⟩ := hd
    simp only [qInsert]
    by_cases hlt : i < i0
    · simp [hlt, listGet]
    · by_cases heq : i = i0
      · simp [hlt, heq, listGet]
      · have hne0 : ¬i0 = i := fun hc => heq hc.symm
        simp [hlt, heq, listGet, hne0, ih]

theorem qInsert_replaced_value_gone (q : List (Nat × Nat)) (i h h1 : Nat)
    (hsorted : q.Pairwise fun a b => a.1 < b.1)
    (hnodup : (q.map Prod.snd).Nodup)
    (hget : listGet q i = some h1) (hne : h ≠ h1) :
    h1 ∉ (qInsert q i h).map Prod.snd := by
  induction q with
  | nil => simp [listGet] at hget
  | cons hd tl ih =>
    obtain ⟨i0, h0⟩ := hd
    simp only [List.pairwise_cons] at hsorted
    simp only [List.map_cons, List.nodup_cons] at hnodup
    simp only [listGet] at hget
    by_cases hlt : i < i0
    · exfalso
      have hne0 : ¬i0 = i := fun hc => absurd (hc ▸ hlt) (lt_irrefl _)
      simp only [if_neg hne0] at hget
      have : listGet tl i = none :=
        listGet_none_of_lt_keys tl i
          (fun e he => lt_trans hlt (hsorted.1 e he))
      simp [this] at hget
    · by_cases heq : i = i0
      · have : i0 = i := heq.symm
        simp only [if_pos this, Option.some.injEq] at hget
        simp only [qInsert, if_neg hlt, if_pos heq, List.map_cons,
          List.mem_cons]
        push_neg
        exact ⟨fun hc => hne hc.symm, hget ▸ hnodup.1⟩
      · have hne0 : ¬i0 = i := fun hc => heq hc.symm
        simp only [if_neg hne0] at hget
        have h1mem : h1 ∈ tl.map Prod.snd :=
          listGet_some_mem_values tl i h1 hget
        simp only [qInsert, if_neg hlt, if_neg heq, List.map_cons,
          List.mem_cons]
        push_neg
        refine ⟨fun hc => hnodup.1 (hc ▸ h1mem), ?_⟩
        exact ih hsorted.2 hnodup.2 hget

/-- Claim C1 counterexample: starting from an empty expander, `queue([5])`
followed by a second `queue([5])` while the first handle is still pending
(the runner has not drained) returns a different pending handle for id 5
(handle token 1, not the first call's token 0): `queue` is not idempotent
across concurrent calls for the same id. -/
theorem revisionExpander_queue_not_idempotent :
    listGet (queueOp [5] ⟨[], 0, []⟩).1 5 = some 0 ∧
    listGet (queueOp [5] (queueOp [5] ⟨[], 0, []⟩).2).1 5 = some 1 ∧
    listGet (queueOp [5] ⟨[], 0, []⟩).1 5 ≠
      listGet (queueOp [5] (queueOp [5] ⟨[], 0, []⟩).2).1 5 := by
  decide

/-- Claim C1 (amended): calling `queue` again with an id `i` whose handle
`h1` from an earlier `queue` call is still pending allocates a fresh
handle (the next allocation token), which is distinct from `h1`,
overwrites the queue entry for `i` with it, and returns it; `h1` is then
never resolved by any subsequent sequence of `queue` calls and runner
passes. -/
theorem revisionExpander_queue_overwrites (requestFn : List Nat → List Nat)
    (s : ExpanderState) (i h1 : Nat)
    (hsorted : s.revisionQueue.Pairwise fun a b => a.1 < b.1)
    (hnodup : (s.revisionQueue.map Prod.snd).Nodup)
    (hget : listGet s.revisionQueue i = some h1)
    (hres : h1 ∉ s.resolvedHandles)
    (hlt : h1 < s.nextHandle) :
    listGet (queueOp [i] s).1 i = some s.nextHandle ∧
    s.nextHandle ≠ h1 ∧
    listGet (queueOp [i] s).2.revisionQueue i = some s.nextHandle ∧
    ∀ ops, h1 ∉
      (expanderExec requestFn (queueOp [i] s).2 ops).resolvedHandles := by
  have hqueue : (queueOp [i] s).2.revisionQueue =
      qInsert s.revisionQueue i s.nextHandle := by
    simp [queueOp]
  have hfresh : s.nextHandle ≠ h1 := Nat.ne_of_gt hlt
  have hlost : HandleLost h1 (queueOp [i] s).2 := by
    refine ⟨?_, ?_, ?_⟩
    · rw [hqueue]
      exact qInsert_replaced_value_gone s.revisionQueue i s.nextHandle h1
        hsorted hnodup hget hfresh
    · simpa [queueOp] using hres
    · simp only [queueOp, List.foldl_cons, List.foldl_nil]
      exact Nat.lt_succ_of_lt hlt
  refine ⟨?_, hfresh, ?_, ?_⟩
  · simp [queueOp, listGet_listSet_self]
  · rw [hqueue]
    exact qInsert_lookup_self s.revisionQueue i s.nextHandle
  · intro ops
    exact (handleLost_exec h1 requestFn _ ops hlost).notResolved

/-- Claim C1 witness for the amended statement, at the concrete state
reached by `queue([5])` from an empty expander. -/
theorem revisionExpander_queue_overwrites_witness :
    listGet (queueOp [5] ⟨[(5, 0)], 1, []⟩).1 5 = some 1 ∧
    (1 : Nat) ≠ 0 ∧
    listGet (queueOp [5] ⟨[(5, 0)], 1, []⟩).2.revisionQueue 5 = some 1 ∧
    ∀ ops, 0 ∉
      (expanderExec (fun _ => []) (queueOp [5] ⟨[(5, 0)], 1, []⟩).2
        ops).resolvedHandles :=
  revisionExpander_queue_overwrites (fun _ => []) ⟨[(5, 0)], 1, []⟩ 5 0
    (by decide) (by decide) (by decide) (by decide) (by decide)

/-- Claim C8: a single pass of the staggered runner drains at most
`PER_BATCH = 50` ids from the head of the pending queue (so the upstream
`request` issued by the pass is called with at most 50 ids), and — when
the upstream response only mentions queried ids — the remaining queued
entries are exactly the entries beyond the first `PER_BATCH`, left for a
subsequent pass. -/
theorem revisionExpander_batch_bound (requestFn : List Nat → List Nat)
    (s : ExpanderState)
    (hreq : ∀ ids, ∀ id ∈ requestFn ids, id ∈ ids)
    (hsorted : s.revisionQueue.Pairwise fun a b => a.1 < b.1) :
    (runBatchIds s).length ≤ PER_BATCH ∧
    (runStep requestFn s).revisionQueue = s.revisionQueue.drop PER_BATCH := by
  constructor
  · calc (runBatchIds s).length
        = (s.revisionQueue.take PER_BATCH).length := by
          simp [runBatchIds]
      _ ≤ PER_BATCH := List.length_take_le PER_BATCH s.revisionQueue
  · show ((s.revisionQueue.drop PER_BATCH).filter _) = _
    apply List.filter_eq_self.2
    intro e hedrop
    have hsplit : s.revisionQueue =
        s.revisionQueue.take PER_BATCH ++ s.revisionQueue.drop PER_BATCH :=
      (List.take_append_drop PER_BATCH s.revisionQueue).symm
    have hpair := hsplit ▸ hsorted
    rw [List.pairwise_append] at hpair
    simp only [decide_eq_true_eq]
    intro hmem
    have hid := hreq _ _ hmem
    rcases List.mem_map.1 hid with ⟨a, ha, hav⟩
    exact absurd (hav ▸ hpair.2.2 a ha e hedrop) (lt_irrefl e.1)

/-- Claim C8 witness at a concrete two-entry queue and an upstream that
responds about no revision. -/
theorem revisionExpander_batch_bound_witness :
    (runBatchIds ⟨[(1, 0), (2, 1)], 2, []⟩).length ≤ PER_BATCH ∧
    (runStep (fun _ => []) ⟨[(1, 0), (2, 1)], 2, []⟩).revisionQueue =
      [(1, 0), (2, 1)].drop PER_BATCH :=
  revisionExpander_batch_bound (fun _ => []) ⟨[(1, 0), (2, 1)], 2, []⟩
    (by simp) (by decide)

/-! ### Search-talk filter validation (`src/routes/v1/user/UserSearchTalk.ts`)

`UserSearchTalk.searchUserTalkPage` validates the request body before
spawning a task: an unknown wiki yields 400 `unsupportedwiki`; then the
filter is checked — `Array.isArray(filter)` branches on `filter.length > 0`,
and a non-array object has `new RegExp(filter.source, filter.flags)`
tried, with a catch yielding 400 `invalidfilter`.  The JS `RegExp`
constructor is external to the repository and is abstracted by the
`regexpCompiles` oracle.  The dedup-cache hit and the fresh `runTask`
call both proceed past validation and are collapsed into `spawned`. -/

inductive FilterType where
  | str (s : String)
  | arr (l : List String)
  | regex (source flags : String)
  deriving DecidableEq, Repr

inductive SearchTalkOutcome where
  | badWiki
  | invalidFilter
  | spawned
  deriving DecidableEq, Repr

def searchUserTalkPage (regexpCompiles : String → String → Bool)
    (siteKnown : Bool) (filter : FilterType) : SearchTalkOutcome :=
  if !siteKnown then .badWiki
  else
    match filter with
    | .arr l => if l.length > 0 then .invalidFilter else .spawned
    | .regex source flags =>
      if regexpCompiles source flags then .spawned else .invalidFilter
    | .str _ => .spawned

/-- Claim C2: the code inverts the intended emptiness check on array
filters.  `searchUserTalkPage` responds 400 `invalidfilter` for the
non-empty array filter `["uw-test1"]` and proceeds to spawn a task for
the empty array filter `[]` — exactly the opposite of the claim (and of
the spec's scenario 4, which sends `["uw-test1","uw-test2"]` and expects
a task).  The regex half of the claim does hold: a regex-shaped object
yields `invalidfilter` exactly when the `RegExp` constructor fails. -/
theorem searchTalk_invalidfilter_bug
    (regexpCompiles : String → String → Bool) :
    searchUserTalkPage regexpCompiles true (.arr ["uw-test1"])
      = .invalidFilter ∧
    searchUserTalkPage regexpCompiles true (.arr []) = .spawned ∧
    (∀ source flags, searchUserTalkPage regexpCompiles true
        (.regex source flags)
      = if regexpCompiles source flags then .spawned else .invalidFilter) := by
  refine ⟨rfl, rfl, fun source flags => ?_⟩
  simp [searchUserTalkPage]

/-! ### Asynchronous tasks (`src/routes/abstract/AsyncTask.ts`)

`AsyncTask` carries `finished`, `progress`, `expireTime` and `result`.
JS numbers are embedded as rationals: on the values reached here
(`Math.max(0, Math.min(1, p))`, the constants 0 and 1) IEEE-754 doubles
and `max`/`min` on ℚ agree for every non-`NaN` input.  The undefined
initial `result` is `none`. -/

def TASK_EXPIRE_TIME : Int := 3600000

structure AsyncTask (R : Type) where
  finished : Bool
  progress : ℚ
  expireTime : Int
  result : Option R
  deriving DecidableEq, Repr

/-- Task construction (`new AsyncTask()`), at current clock `now`. -/
def AsyncTask.new (R : Type) (now : Int) : AsyncTask R :=
  { finished := false
    progress := 0
    expireTime := now + TASK_EXPIRE_TIME
    result := none }

/-- `AsyncTask.updateProgress`: `this.progress = Math.max(0, Math.min(1, progress))`. -/
def AsyncTask.updateProgress {R : Type} (t : AsyncTask R) (p : ℚ) :
    AsyncTask R :=
  { t with progress := max 0 (min 1 p) }

/-- `AsyncTask.finish`: set progress to 1, store the result, mark finished. -/
def AsyncTask.finish {R : Type} (t : AsyncTask R) (r : R) : AsyncTask R :=
  { t with progress := 1, result := some r, finished := true }

/-- Claim C9: `updateProgress(p)` stores exactly `max(0, min(1, p))`, so
out-of-range inputs are clamped rather than rejected; and every operation
on an `AsyncTask` (construction, `updateProgress`, `finish`) leaves the
progress within `[0, 1]`. -/
theorem asyncTask_progress_clamped {R : Type} (t : AsyncTask R) (p : ℚ)
    (r : R) (now : Int) :
    (t.updateProgress p).progress = max 0 (min 1 p) ∧
    0 ≤ (t.updateProgress p).progress ∧ (t.updateProgress p).progress ≤ 1 ∧
    (AsyncTask.new R now).progress = 0 ∧
    0 ≤ (AsyncTask.new R now).progress ∧
    (AsyncTask.new R now).progress ≤ 1 ∧
    (t.finish r).progress = 1 ∧
    0 ≤ (t.finish r).progress ∧ (t.finish r).progress ≤ 1 := by
  refine ⟨rfl, le_max_left 0 _, ?_, rfl, le_refl 0, zero_le_one, rfl,
    zero_le_one, le_refl 1⟩
  exact max_le zero_le_one (min_le_left 1 p)

/-! ### Task engine with error capture (the `AsyncTaskController` variant
whose task lists hold `AsyncTask<any> | Error`)

`runTask` attaches `.catch(e => this.tasks.set(task.id, e))` to the
worker promise: a rejection replaces the map entry for the task id by an
`Error`.  The observers special-case `task instanceof Error`, and
`handleResultRequest` answers 500 `task-uncaught-generic` for it.  A
lookup of a missing id would throw in JS (`undefined.progress`), which
the `Option` result models. -/

inductive TaskEntry (R : Type) where
  | task (t : AsyncTask R)
  | err (msg : String)
  deriving DecidableEq, Repr

abbrev TaskMap (R : Type) := List (String × TaskEntry R)

/-- The error trap installed by `runTask`: an uncaught worker rejection
with message `msg` overwrites the task-list entry for `id`. -/
def captureTaskFailure {R : Type} (tasks : TaskMap R) (id msg : String) :
    TaskMap R :=
  listSet tasks id (.err msg)

/-- `AsyncTaskController.getTaskProgress`. -/
def getTaskProgress {R : Type} (tasks : TaskMap R) (id : String) :
    Option ℚ :=
  (listGet tasks id).map fun e =>
    match e with
    | .err _ => 1
    | .task t => t.progress

/-- `AsyncTaskController.getTaskFinished`. -/
def getTaskFinished {R : Type} (tasks : TaskMap R) (id : String) :
    Option Bool :=
  (listGet tasks id).map fun e =>
    match e with
    | .err _ => true
    | .task t => t.finished

/-- `AsyncTaskController.getTaskResult` (`null` for `Error` entries is
the inner `none`). -/
def getTaskResult {R : Type} (tasks : TaskMap R) (id : String) :
    Option (Option R) :=
  (listGet tasks id).map fun e =>
    match e with
    | .err _ => none
    | .task t => t.result

inductive ResultResponse (R : Type) where
  | missing
  | uncaught (msg : String)
  | unfinished
  | ok (r : Option R)
  deriving DecidableEq, Repr

/-- `AsyncTaskController.handleResultRequest`: 404 (`missing`) on an
unknown id, 500 `task-uncaught-generic` (`uncaught`) on an `Error`
entry, 409 (`unfinished`) when not finished, else the stored result. -/
def handleResultRequest {R : Type} (tasks : TaskMap R) (id : String) :
    ResultResponse R :=
  match listGet tasks id with
  | none => .missing
  | some (.err m) => .uncaught m
  | some (.task t) => if !t.finished then .unfinished else .ok t.result

/-- Claim C5: when a worker promise rejection has been captured (the
task-list entry for `id` is an `Error` and the task has not been swept),
the engine reports progress 1, finished `true` and result `null`, and
`handleResultRequest` answers 500 `task-uncaught-generic` — not 404 and
not 409.  Moreover the error trap itself produces exactly such an
entry. -/
theorem asyncTaskController_error_state {R : Type} (tasks : TaskMap R)
    (id msg : String) (h : listGet tasks id = some (.err msg)) :
    getTaskProgress tasks id = some 1 ∧
    getTaskFinished tasks id = some true ∧
    getTaskResult tasks id = some none ∧
    handleResultRequest tasks id = .uncaught msg ∧
    handleResultRequest tasks id ≠ ResultResponse.missing ∧
    handleResultRequest tasks id ≠ ResultResponse.unfinished ∧
    (∀ ts : TaskMap R,
      listGet (captureTaskFailure ts id msg) id = some (.err msg)) := by
  refine ⟨?_, ?_, ?_, ?_, ?_, ?_, fun ts => listGet_listSet_self ts id _⟩ <;>
    simp [getTaskProgress, getTaskFinished, getTaskResult,
      handleResultRequest, h]

/-- Claim C5 witness: a one-entry task list holding a captured `Error`. -/
theorem asyncTaskController_error_state_witness :
    getTaskProgress [("a", TaskEntry.err (R := Nat) "boom")] "a" = some 1 ∧
    getTaskFinished [("a", TaskEntry.err (R := Nat) "boom")] "a"
      = some true ∧
    getTaskResult [("a", TaskEntry.err (R := Nat) "boom")] "a"
      = some none ∧
    handleResultRequest [("a", TaskEntry.err (R := Nat) "boom")] "a"
      = .uncaught "boom" ∧
    handleResultRequest [("a", TaskEntry.err (R := Nat) "boom")] "a"
      ≠ ResultResponse.missing ∧
    handleResultRequest [("a", TaskEntry.err (R := Nat) "boom")] "a"
      ≠ ResultResponse.unfinished ∧
    (∀ ts : TaskMap Nat,
      listGet (captureTaskFailure ts "a" "boom") "a"
        = some (.err "boom")) :=
  asyncTaskController_error_state [("a", TaskEntry.err "boom")] "a" "boom"
    (by decide)

/-! ### Deleted-revision reconstruction
(`src/processors/UserDeletedRevisionFetcher.ts`)

`upgradeDeletedRevisions` queries candidate deletion log entries ordered
by `log_timestamp` ascending, then builds `entryIndex` /
`entryFirstFew`, keyed by revision id, by iterating the entries
oldest-first and overwriting on duplicate ids; each entry's `params.ids`
is sorted ascending in place first and `firstFew` is its first three
ids.  Every revision is then annotated: `deleted` is the indexed entry
when one claims its revid and `true` (here `suppressed`) otherwise, and
`islikelycause` is whether the revid is among the claiming entry's
`firstFew`.  Log timestamps (MediaWiki binary strings, lexicographically
chronological) are embedded as naturals; of a revision row only the
`revid` participates in the annotation, so revisions are embedded by
their revid. -/

structure DeletionLogEntry where
  logid : Nat
  timestamp : Nat
  ids : List Nat
  deriving DecidableEq, Repr

def insertSorted (x : Nat) : List Nat → List Nat
  | [] => [x]
  | y :: ys => if x ≤ y then x :: y :: ys else y :: insertSorted x ys

/-- `entry.params.ids.sort((a, b) => a - b)`. -/
def sortAsc (l : List Nat) : List Nat := l.foldr insertSorted []

/-- The in-place ascending sort of an entry's ids performed before
indexing. -/
def sortEntry (e : DeletionLogEntry) : DeletionLogEntry :=
  { e with ids := sortAsc e.ids }

structure EntryIndexes where
  entryIndex : List (Nat × DeletionLogEntry)
  entryFirstFew : List (Nat × List Nat)
  deriving DecidableEq, Repr

/-- One iteration of the indexing loop: sort the entry's ids, compute
`firstFew`, and write the entry under every id it names (overwriting
earlier entries for the same id). -/
def indexLogEntry (acc : EntryIndexes) (entry : DeletionLogEntry) :
    EntryIndexes :=
  let entry' := sortEntry entry
  let firstFew := entry'.ids.take 3
  entry'.ids.foldl
    (fun acc id =>
      { entryIndex := listSet acc.entryIndex id entry',
        entryFirstFew := listSet acc.entryFirstFew id firstFew })
    acc

/-- The index built from the log entries in query order (ascending
`log_timestamp`). -/
def buildEntryIndex (entries : List DeletionLogEntry) : EntryIndexes :=
  entries.foldl indexLogEntry ⟨[], []⟩

inductive DeletedAnnotation where
  | suppressed
  | byLog (e : DeletionLogEntry)
  deriving DecidableEq, Repr

structure UpgradedRevision where
  revid : Nat
  texthidden : Bool
  deleted : DeletedAnnotation
  islikelycause : Bool
  deriving DecidableEq, Repr

/-- The per-revision annotation step of `upgradeDeletedRevisions`. -/
def upgradeOne (idx : EntryIndexes) (revid : Nat) : UpgradedRevision :=
  { revid := revid
    texthidden := true
    deleted :=
      match listGet idx.entryIndex revid with
      | some e => .byLog e
      | none => .suppressed
    islikelycause :=
      match listGet idx.entryIndex revid, listGet idx.entryFirstFew revid
      with
      | some _, some ff => decide (revid ∈ ff)
      | _, _ => false }

/-- `upgradeDeletedRevisions`, restricted to the revids of the input
revisions. -/
def upgradeDeletedRevisions (entries : List DeletionLogEntry)
    (revids : List Nat) : List UpgradedRevision :=
  revids.map (upgradeOne (buildEntryIndex entries))

theorem mem_insertSorted (x a : Nat) (l : List Nat) :
    a ∈ insertSorted x l ↔ a = x ∨ a ∈ l := by
  induction l with
  | nil => simp [insertSorted]
  | cons y ys ih =>
    simp only [insertSorted]
    by_cases h : x ≤ y
    · simp [h]
    · simp only [if_neg h, List.mem_cons, ih]
      tauto

theorem mem_sortAsc (a : Nat) (l : List Nat) : a ∈ sortAsc l ↔ a ∈ l := by
  induction l with
  | nil => simp [sortAsc]
  | cons y ys ih =>
    simp only [sortAsc, List.foldr_cons] at ih ⊢
    rw [mem_insertSorted]
    simp [ih]

theorem foldl_pairSet_entryIndex (ids : List Nat) (e : DeletionLogEntry)
    (ff : List Nat) (acc : EntryIndexes) :
    (ids.foldl
      (fun acc id =>
        { entryIndex := listSet acc.entryIndex id e,
          entryFirstFew := listSet acc.entryFirstFew id ff })
      acc).entryIndex =
    ids.foldl (fun m id => listSet m id e) acc.entryIndex := by
  induction ids generalizing acc with
  | nil => rfl
  | cons id rest ih => simp only [List.foldl_cons, ih]

theorem listGet_foldl_listSet (ids : List Nat) (e : DeletionLogEntry)
    (m : List (Nat × DeletionLogEntry)) (r : Nat) :
    listGet (ids.foldl (fun m id => listSet m id e) m) r =
      if r ∈ ids then some e else listGet m r := by
  induction ids generalizing m with
  | nil => simp
  | cons id rest ih =>
    simp only [List.foldl_cons, ih, List.mem_cons]
    by_cases hr : r ∈ rest
    · simp [hr]
    · by_cases hid : r = id
      · subst hid
        simp [hr, listGet_listSet_self]
      · simp [hr, hid, listGet_listSet_ne m id r e (fun hc => hid hc.symm)]

theorem indexLogEntry_lookup (acc : EntryIndexes) (e : DeletionLogEntry)
    (r : Nat) :
    listGet (indexLogEntry acc e).entryIndex r =
      if r ∈ e.ids then some (sortEntry e) else listGet acc.entryIndex r := by
  unfold indexLogEntry
  rw [foldl_pairSet_entryIndex, listGet_foldl_listSet]
  by_cases h : r ∈ e.ids
  · simp [sortEntry, h, (mem_sortAsc r e.ids).2 h]
  · have h2 : r ∉ sortAsc e.ids := fun hc => h ((mem_sortAsc r e.ids).1 hc)
    simp [sortEntry, h, h2]

theorem buildEntryIndex_lookup_from (acc : EntryIndexes)
    (entries : List DeletionLogEntry) (r : Nat) :
    listGet ((entries.foldl indexLogEntry acc).entryIndex) r =
      match (entries.filter fun e => decide (r ∈ e.ids)).getLast? with
      | some e => some (sortEntry e)
      | none => listGet acc.entryIndex r := by
  induction entries using List.reverseRecOn generalizing acc with
  | nil => simp
  | append_singleton es e ih =>
    rw [List.foldl_append, List.foldl_cons, List.foldl_nil,
      List.filter_append]
    by_cases h : r ∈ e.ids
    · simp only [List.filter_cons, List.filter_nil, decide_eq_true h,
        if_true]
      rw [List.getLast?_concat]
      rw [indexLogEntry_lookup, if_pos h]
    · have hd : decide (r ∈ e.ids) = false := decide_eq_false h
      simp only [List.filter_cons, List.filter_nil, hd,
        Bool.false_eq_true, if_false, List.append_nil]
      rw [indexLogEntry_lookup, if_neg h]
      exact ih acc

theorem getLast?_mem_self {α : Type} (l : List α) (a : α)
    (h : l.getLast? = some a) : a ∈ l := by
  induction l with
  | nil => simp at h
  | cons x xs ih =>
    cases xs with
    | nil =>
      simp only [List.getLast?_singleton, Option.some.injEq] at h
      simp [h]
    | cons y ys =>
      rw [List.getLast?_cons_cons] at h
      exact List.mem_cons_of_mem x (ih h)

theorem getLast?_max_of_pairwise (l : List DeletionLogEntry)
    (hp : l.Pairwise fun a b => a.timestamp < b.timestamp)
    (e : DeletionLogEntry) (hl : l.getLast? = some e) :
    ∀ x ∈ l, x.timestamp ≤ e.timestamp := by
  induction l with
  | nil => simp at hl
  | cons a l' ih =>
    simp only [List.pairwise_cons] at hp
    intro x hx
    cases l' with
    | nil =>
      simp only [List.getLast?_singleton, Option.some.injEq] at hl
      simp only [List.mem_singleton] at hx
      rw [hx, hl]
    | cons b l'' =>
      rw [List.getLast?_cons_cons] at hl
      have hetl : e ∈ b :: l'' := getLast?_mem_self _ _ hl
      rcases List.mem_cons.1 hx with hxa | hxtl
      · exact hxa ▸ le_of_lt (hp.1 e hetl)
      · exact ih hp.2 hl x hxtl

/-- Claim C3: with candidate deletion log entries in ascending
`log_timestamp` order (distinct timestamps), a revision id claimed by at
least one entry is annotated with the claiming entry whose timestamp is
greatest (so with several claimants the later one wins), and a revision
claimed by no entry gets `deleted = true` (`suppressed`) and
`islikelycause = false`. -/
theorem deletedRevisions_latest_log_wins (entries : List DeletionLogEntry)
    (r : Nat)
    (hsorted : entries.Pairwise fun a b => a.timestamp < b.timestamp) :
    ((∃ e0 ∈ entries, r ∈ e0.ids) →
      ∃ em, em ∈ entries ∧ r ∈ em.ids ∧
        (upgradeOne (buildEntryIndex entries) r).deleted
          = .byLog (sortEntry em) ∧
        ∀ e' ∈ entries, r ∈ e'.ids → e'.timestamp ≤ em.timestamp) ∧
    ((∀ e ∈ entries, r ∉ e.ids) →
      (upgradeOne (buildEntryIndex entries) r).deleted
          = DeletedAnnotation.suppressed ∧
      (upgradeOne (buildEntryIndex entries) r).islikelycause = false) := by
  have hchar := buildEntryIndex_lookup_from ⟨[], []⟩ entries r
  constructor
  · rintro ⟨e0, he0, hre0⟩
    have hfilter : e0 ∈ entries.filter fun e => decide (r ∈ e.ids) :=
      List.mem_filter.2 ⟨he0, decide_eq_true hre0⟩
    have hne : (entries.filter fun e => decide (r ∈ e.ids)) ≠ [] :=
      List.ne_nil_of_mem hfilter
    rcases Option.ne_none_iff_exists'.1
        (mt List.getLast?_eq_none_iff.1 hne) with ⟨em, hem⟩
    refine ⟨em, ?_, ?_, ?_, ?_⟩
    · exact (List.mem_filter.1 (getLast?_mem_self _ _ hem)).1
    · exact of_decide_eq_true
        (List.mem_filter.1 (getLast?_mem_self _ _ hem)).2
    · show (upgradeOne (buildEntryIndex entries) r).deleted = _
      unfold upgradeOne
      simp only [buildEntryIndex] at hchar ⊢
      rw [hchar, hem]
    · intro e' he' hre'
      exact getLast?_max_of_pairwise _ (hsorted.filter _) em hem e'
        (List.mem_filter.2 ⟨he', decide_eq_true hre'⟩)
  · intro hnone
    have hfe : (entries.filter fun e => decide (r ∈ e.ids)) = [] := by
      apply List.filter_eq_nil_iff.2
      intro e he
      simpa using hnone e he
    have hlookup :
        listGet (buildEntryIndex entries).entryIndex r = none := by
      simp only [buildEntryIndex]
      rw [hchar, hfe]
      simp [listGet]
    constructor <;>
      · unfold upgradeOne
        rw [hlookup]

/-- Claim C3 witness: revision 3 is claimed by both entries; the later
(timestamp 20) wins, and revision 99 is claimed by none. -/
theorem deletedRevisions_latest_log_wins_witness :
    ((∃ e0 ∈ [⟨1, 10, [7, 3]⟩, ⟨2, 20, [3]⟩], (3 : Nat) ∈
        DeletionLogEntry.ids e0) →
      ∃ em, em ∈ [⟨1, 10, [7, 3]⟩, ⟨2, 20, [3]⟩] ∧
        (3 : Nat) ∈ DeletionLogEntry.ids em ∧
        (upgradeOne (buildEntryIndex [⟨1, 10, [7, 3]⟩, ⟨2, 20, [3]⟩])
            3).deleted = .byLog (sortEntry em) ∧
        ∀ e' ∈ [⟨1, 10, [7, 3]⟩, ⟨2, 20, [3]⟩],
          (3 : Nat) ∈ DeletionLogEntry.ids e' →
            DeletionLogEntry.timestamp e' ≤ DeletionLogEntry.timestamp em) ∧
    ((∀ e ∈ [⟨1, 10, [7, 3]⟩, ⟨2, 20, [3]⟩],
        (3 : Nat) ∉ DeletionLogEntry.ids e) →
      (upgradeOne (buildEntryIndex [⟨1, 10, [7, 3]⟩, ⟨2, 20, [3]⟩])
          3).deleted = DeletedAnnotation.suppressed ∧
      (upgradeOne (buildEntryIndex [⟨1, 10, [7, 3]⟩, ⟨2, 20, [3]⟩])
          3).islikelycause = false) :=
  deletedRevisions_latest_log_wins [⟨1, 10, [7, 3]⟩, ⟨2, 20, [3]⟩] 3
    (by decide)

/-! ### Talk-page scanner (`src/processors/UserTalkPageFetcher.ts`,
`src/util/func/countInstances.ts`)

`processRevisions` walks the page history oldest-first.  A revision with
`slots.main.content == null` is skipped.  Otherwise the `strfnr` matcher
produces one match record per occurrence; `filterSanitized` is the list
of `JSON.stringify`-serialized filters of those occurrences (one element
per match, so a filter matching n times occurs n times).  `strfnr` being
external, a processed revision is embedded as `Option (List String)`:
`none` for null content, `some matched` for its `filterSanitized` list.
Keys are identified by their serialization (which is injective on the
filter values involved).  `hits` is `countInstances(filterSanitized,
[...arrayFilters, ...lastHits.keys()])`; per key the delta against
`lastHits` is emitted as that many `add` (delta &gt; 0) or `remove`
(delta &lt; 0) events; then `lastHits := hits`.

The source attaches `filterLookup[hitFilter]` (the deserialized form of
the same key) and the matched substrings to each event; events here
carry the key, which is what the per-filter accounting is over. -/

inductive FilterAction where
  | add
  | remove
  deriving DecidableEq, Repr

structure FilterEvent where
  key : String
  action : FilterAction
  deriving DecidableEq, Repr

/-- First phase of `countInstances`: count every item of `arr` into a
JS `Map` (`counts.set(item, (counts.get(item) ?? 0) + 1)`). -/
def countsFold (arr : List String) (m : List (String × Nat)) :
    List (String × Nat) :=
  arr.foldl (fun m item => listSet m item ((listGet m item).getD 0 + 1)) m

/-- Second phase of `countInstances`: force every key of `forcedKeys`
to be present, with count 0 if absent. -/
def forceFold (forced : List String) (m : List (String × Nat)) :
    List (String × Nat) :=
  forced.foldl
    (fun m key => if (listGet m key).isSome then m else m ++ [(key, 0)]) m

/-- `countInstances(arr, forcedKeys)` from `src/util/func/countInstances.ts`. -/
def countInstances (arr forced : List String) : List (String × Nat) :=
  forceFold forced (countsFold arr [])

/-- The events emitted for one revision: per entry of `hits`, the delta
against `lastHits` as unit `add`/`remove` events. -/
def deltaEvents (lastHits hits : List (String × Nat)) : List FilterEvent :=
  (hits.map (fun e =>
    let hitDelta : Int := (e.2 : Int) - (((listGet lastHits e.1).getD 0 : Nat) : Int)
    if 0 < hitDelta then List.replicate hitDelta.toNat ⟨e.1, .add⟩
    else if hitDelta < 0 then
      List.replicate (-hitDelta).toNat ⟨e.1, .remove⟩
    else [])).flatten

/-- The revision loop of `UserTalkPageFetcher.processRevisions`,
started from a given `lastHits` map; returns the final `lastHits` and
the emitted event history in order. -/
def processRevisionsFrom (af : List String) (lastHits : List (String × Nat)) :
    List (Option (List String)) → List (String × Nat) × List FilterEvent
  | [] => (lastHits, [])
  | none :: rest => processRevisionsFrom af lastHits rest
  | some matched :: rest =>
    let hits := countInstances matched (af ++ listKeys lastHits)
    let next := processRevisionsFrom af hits rest
    (next.1, deltaEvents lastHits hits ++ next.2)

/-- `new Map(Array.isArray(filter) ? filter.map(f => [f, 0]) : [])`. -/
def initialLastHits (af : List String) : List (String × Nat) :=
  af.foldl (fun m f => listSet m f 0) []

/-- `UserTalkPageFetcher.processRevisions` for an array filter `af`
(for a string or regex filter `af = []`, which makes the initial map
empty, as in the source). -/
def processRevisions (af : List String)
    (revs : List (Option (List String))) :
    List (String × Nat) × List FilterEvent :=
  processRevisionsFrom af (initialLastHits af) revs

def eventDelta (ev : FilterEvent) : Int :=
  match ev.action with
  | .add => 1
  | .remove => -1

/-- Signed number of events carrying key `k`: +1 per `add`, −1 per
`remove`. -/
def eventSum (k : String) (evs : List FilterEvent) : Int :=
  ((evs.filter fun ev => decide (ev.key = k)).map eventDelta).sum

theorem mem_keys_isSome {α β : Type} [DecidableEq α]
    (m : List (α × β)) (k : α) (h : k ∈ listKeys m) :
    (listGet m k).isSome := by
  induction m with
  | nil => simp [listKeys] at h
  | cons hd tl ih =>
    obtain ⟨k0, v0⟩ := hd
    simp only [listKeys, List.map_cons, List.mem_cons] at h
    by_cases hk : k0 = k
    · simp [listGet, hk]
    · rcases h with h | h
      · exact absurd h.symm hk
      · simp [listGet, hk, ih (by simpa [listKeys] using h)]

theorem listGet_append_single {α β : Type} [DecidableEq α]
    (m : List (α × β)) (k0 k : α) (v0 : β) :
    listGet (m ++ [(k0, v0)]) k =
      match listGet m k with
      | some v => some v
      | none => if k0 = k then some v0 else none := by
  induction m with
  | nil => simp [listGet]
  | cons hd tl ih =>
    obtain ⟨k1, v1⟩ := hd
    by_cases hk : k1 = k
    · simp [listGet, hk]
    · simp [listGet, hk, ih]

theorem countsFold_get (arr : List String) (m : List (String × Nat))
    (k : String) :
    listGet (countsFold arr m) k =
      if k ∈ arr ∨ (listGet m k).isSome then
        some ((listGet m k).getD 0 + arr.count k)
      else none := by
  induction arr generalizing m with
  | nil =>
    simp only [countsFold, List.foldl_nil, List.not_mem_nil, false_or,
      List.count_nil]
    cases h : listGet m k <;> simp [h]
  | cons a rest ih =>
    have hstep : countsFold (a :: rest) m =
        countsFold rest (listSet m a ((listGet m a).getD 0 + 1)) := rfl
    rw [hstep, ih]
    by_cases hk : k = a
    · subst hk
      rw [listGet_listSet_self]
      simp only [Option.isSome_some, or_true, if_true, List.mem_cons,
        true_or, Option.getD_some]
      simp [List.count_cons]
      omega
    · rw [listGet_listSet_ne m a k _ (fun hc => hk hc.symm)]
      have hcount : (a :: rest).count k = rest.count k := by
        simp [List.count_cons, hk]
      have hmem : (k ∈ a :: rest) ↔ k ∈ rest := by
        simp [List.mem_cons, hk]
      rw [hcount]
      by_cases hcond : k ∈ rest ∨ (listGet m k).isSome
      · rw [if_pos hcond, if_pos (by rw [hmem]; exact hcond)]
      · rw [if_neg hcond, if_neg (by rw [hmem]; exact hcond)]

theorem forceFold_get (forced : List String) (m : List (String × Nat))
    (k : String) :
    listGet (forceFold forced m) k =
      match listGet m k with
      | some v => some v
      | none => if k ∈ forced then some 0 else none := by
  induction forced generalizing m with
  | nil =>
    simp only [forceFold, List.foldl_nil]
    cases h : listGet m k <;> simp [h]
  | cons f0 rest ih =>
    have hstep : forceFold (f0 :: rest) m =
        forceFold rest
          (if (listGet m f0).isSome then m else m ++ [(f0, 0)]) := rfl
    rw [hstep]
    by_cases hf : (listGet m f0).isSome
    · rw [if_pos hf, ih]
      cases h : listGet m k with
      | some v => simp
      | none =>
        have hne : ¬k = f0 := fun hc => by
          rw [hc] at h
          rw [h] at hf
          simp at hf
        simp [List.mem_cons, hne]
    · rw [if_neg hf, ih, listGet_append_single]
      cases h : listGet m k with
      | some v => simp
      | none =>
        by_cases hk : f0 = k
        · simp [hk]
        · have hk2 : ¬k = f0 := fun hc => hk hc.symm
          simp [hk, hk2, List.mem_cons]

theorem countInstances_get (arr forced : List String) (k : String) :
    listGet (countInstances arr forced) k =
      if k ∈ arr then some (arr.count k)
      else if k ∈ forced then some 0 else none := by
  unfold countInstances
  rw [forceFold_get, countsFold_get]
  simp only [listGet, Option.isSome_none, or_false, Option.getD_none,
    Nat.zero_add]
  by_cases h : k ∈ arr
  · simp [h]
  · simp [h]

theorem countInstances_total (arr forced : List String) (k : String) :
    (listGet (countInstances arr forced) k).getD 0 = arr.count k := by
  rw [countInstances_get]
  by_cases h : k ∈ arr
  · simp [h]
  · have : arr.count k = 0 := by
      simp [List.count_eq_zero, h]
    by_cases h2 : k ∈ forced <;> simp [h, h2, this]

theorem mem_keys_listSet {α β : Type} [DecidableEq α]
    (m : List (α × β)) (k a : α) (v : β) :
    a ∈ listKeys (listSet m k v) ↔ a ∈ listKeys m ∨ a = k := by
  induction m with
  | nil => simp [listSet, listKeys]
  | cons hd tl ih =>
    obtain ⟨k0, v0⟩ := hd
    by_cases hk : k0 = k
    · simp only [listSet, if_pos hk, listKeys, List.map_cons,
        List.mem_cons]
      constructor
      · rintro (h | h)
        · exact Or.inr h
        · exact Or.inl (Or.inr h)
      · rintro ((h | h) | h)
        · exact Or.inl (h.trans hk)
        · exact Or.inr h
        · exact Or.inl h
    · simp only [listSet, if_neg hk, listKeys, List.map_cons,
        List.mem_cons]
      rw [show (a ∈ List.map Prod.fst (listSet tl k v)) =
        (a ∈ listKeys (listSet tl k v)) from rfl, ih]
      simp only [listKeys]
      tauto

theorem nodupKeys_listSet {α β : Type} [DecidableEq α]
    (m : List (α × β)) (k : α) (v : β)
    (h : (listKeys m).Nodup) : (listKeys (listSet m k v)).Nodup := by
  induction m with
  | nil => simp [listSet, listKeys]
  | cons hd tl ih =>
    obtain ⟨k0, v0⟩ := hd
    simp only [listKeys, List.map_cons, List.nodup_cons] at h
    by_cases hk : k0 = k
    · simp only [listSet, if_pos hk, listKeys, List.map_cons,
        List.nodup_cons]
      refine ⟨fun hc => h.1 ?_, by simpa [listKeys] using h.2⟩
      rw [hk]
      exact hc
    · simp only [listSet, if_neg hk, listKeys, List.map_cons,
        List.nodup_cons]
      constructor
      · intro hc
        rcases (mem_keys_listSet tl k k0 v).1 (by simpa [listKeys] using hc)
          with h2 | h2
        · exact h.1 (by simpa [listKeys] using h2)
        · exact hk h2
      · exact by simpa [listKeys] using ih (by simpa [listKeys] using h.2)

theorem nodupKeys_countsFold (arr : List String) (m : List (String × Nat))
    (h : (listKeys m).Nodup) : (listKeys (countsFold arr m)).Nodup := by
  induction arr generalizing m with
  | nil => simpa [countsFold] using h
  | cons a rest ih =>
    have hstep : countsFold (a :: rest) m =
        countsFold rest (listSet m a ((listGet m a).getD 0 + 1)) := rfl
    rw [hstep]
    exact ih _ (nodupKeys_listSet m a _ h)

theorem nodupKeys_forceFold (forced : List String)
    (m : List (String × Nat)) (h : (listKeys m).Nodup) :
    (listKeys (forceFold forced m)).Nodup := by
  induction forced generalizing m with
  | nil => simpa [forceFold] using h
  | cons f0 rest ih =>
    have hstep : forceFold (f0 :: rest) m =
        forceFold rest
          (if (listGet m f0).isSome then m else m ++ [(f0, 0)]) := rfl
    rw [hstep]
    by_cases hf : (listGet m f0).isSome
    · rw [if_pos hf]
      exact ih m h
    · rw [if_neg hf]
      apply ih
      have hnotmem : f0 ∉ listKeys m := fun hc => hf (mem_keys_isSome m f0 hc)
      simp only [listKeys, List.map_append, List.map_cons, List.map_nil]
      exact List.Nodup.append h (List.nodup_singleton f0)
        (by simpa [List.disjoint_singleton, listKeys] using hnotmem)

theorem nodupKeys_countInstances (arr forced : List String) :
    (listKeys (countInstances arr forced)).Nodup :=
  nodupKeys_forceFold forced _ (nodupKeys_countsFold arr [] (by simp [listKeys]))

theorem eventSum_append (k : String) (l1 l2 : List FilterEvent) :
    eventSum k (l1 ++ l2) = eventSum k l1 + eventSum k l2 := by
  simp [eventSum, List.filter_append]

theorem eventSum_replicate (k k0 : String) (n : Nat) (act : FilterAction) :
    eventSum k (List.replicate n ⟨k0, act⟩) =
      if k0 = k then n * eventDelta ⟨k0, act⟩ else 0 := by
  induction n with
  | zero => simp [eventSum]
  | succ n ih =>
    rw [List.replicate_succ]
    by_cases hk : k0 = k
    · simp only [eventSum, List.filter_cons, decide_eq_true hk, if_true]
      simp only [eventSum] at ih
      simp only [List.map_cons, List.sum_cons, ih, if_pos hk]
      push_cast
      ring
    · simp only [eventSum, List.filter_cons, decide_eq_false hk,
        Bool.false_eq_true, if_false]
      simp only [eventSum] at ih
      rw [ih, if_neg hk, if_neg hk]

/-- Per-revision event sum: the signed count of events emitted for key
`k` at one revision equals the delta of `hits` against `lastHits` at
`k` (0 when `k` is not a key of `hits`). -/
theorem eventSum_deltaEvents (lastHits hits : List (String × Nat))
    (hnd : (listKeys hits).Nodup) (k : String) :
    eventSum k (deltaEvents lastHits hits) =
      match listGet hits k with
      | some c => (c : Int) - (((listGet lastHits k).getD 0 : Nat) : Int)
      | none => 0 := by
  induction hits with
  | nil => simp [deltaEvents, eventSum, listGet]
  | cons e tl ih =>
    obtain ⟨k0, c0⟩ := e
    simp only [listKeys, List.map_cons, List.nodup_cons] at hnd
    have hsplit : deltaEvents lastHits ((k0, c0) :: tl) =
        (let hitDelta : Int :=
          (c0 : Int) - (((listGet lastHits k0).getD 0 : Nat) : Int)
         if 0 < hitDelta then List.replicate hitDelta.toNat ⟨k0, .add⟩
         else if hitDelta < 0 then
           List.replicate (-hitDelta).toNat ⟨k0, .remove⟩
         else []) ++ deltaEvents lastHits tl := by
      simp [deltaEvents]
    rw [hsplit, eventSum_append]
    set d : Int := (c0 : Int) - (((listGet lastHits k0).getD 0 : Nat) : Int)
      with hd
    have hhead : eventSum k
        (if 0 < d then List.replicate d.toNat ⟨k0, .add⟩
         else if d < 0 then List.replicate (-d).toNat ⟨k0, .remove⟩
         else []) = if k0 = k then d else 0 := by
      by_cases h1 : 0 < d
      · rw [if_pos h1, eventSum_replicate]
        by_cases hk : k0 = k
        · simp only [if_pos hk, eventDelta]
          rw [Int.toNat_of_nonneg (le_of_lt h1)]
          ring
        · simp [hk]
      · rw [if_neg h1]
        by_cases h2 : d < 0
        · rw [if_pos h2, eventSum_replicate]
          by_cases hk : k0 = k
          · simp only [if_pos hk, eventDelta]
            rw [Int.toNat_of_nonneg (by omega)]
            ring
          · simp [hk]
        · have hd0 : d = 0 := by omega
          rw [if_neg h2]
          simp [eventSum, hd0]
    rw [hhead, ih hnd.2]
    by_cases hk : k0 = k
    · subst hk
      have htl : listGet tl k0 = none :=
        listGet_eq_none_of_not_mem tl k0 (by simpa [listKeys] using hnd.1)
      simp [listGet, htl, hd]
    · simp [listGet, hk]

theorem eventSum_step (af matched : List String)
    (last : List (String × Nat)) (k : String) :
    eventSum k
      (deltaEvents last (countInstances matched (af ++ listKeys last))) =
      ((listGet (countInstances matched (af ++ listKeys last)) k).getD 0
          : Int) -
      (((listGet last k).getD 0 : Nat) : Int) := by
  rw [eventSum_deltaEvents last _ (nodupKeys_countInstances _ _) k]
  cases hh : listGet (countInstances matched (af ++ listKeys last)) k with
  | some c => simp [hh]
  | none =>
    have hget := countInstances_get matched (af ++ listKeys last) k
    rw [hh] at hget
    by_cases h1 : k ∈ matched
    · simp [h1] at hget
    · by_cases h2 : k ∈ af ++ listKeys last
      · simp [h1, h2] at hget
      · have hlast : listGet last k = none :=
          listGet_eq_none_of_not_mem last k
            (fun hc => h2 (List.mem_append.2 (Or.inr hc)))
        simp [hlast]

theorem processRevisionsFrom_eventSum (af : List String)
    (revs : List (Option (List String))) (last : List (String × Nat))
    (k : String) :
    eventSum k (processRevisionsFrom af last revs).2 =
      ((listGet (processRevisionsFrom af last revs).1 k).getD 0 : Int) -
      (((listGet last k).getD 0 : Nat) : Int) := by
  induction revs generalizing last with
  | nil => simp [processRevisionsFrom, eventSum]
  | cons rev rest ih =>
    cases rev with
    | none =>
      show eventSum k (processRevisionsFrom af last rest).2 = _
      exact ih last
    | some matched =>
      show eventSum k
          (deltaEvents last (countInstances matched (af ++ listKeys last))
            ++ (processRevisionsFrom af
              (countInstances matched (af ++ listKeys last)) rest).2) = _
      rw [eventSum_append, eventSum_step, ih]
      show _ = ((listGet (processRevisionsFrom af
          (countInstances matched (af ++ listKeys last)) rest).1 k).getD 0
            : Int) - _
      ring

theorem getLast?_cons_elim {α : Type} (a : α) (l : List α) :
    (a :: l).getLast? = some ((l.getLast?).getD a) := by
  induction l generalizing a with
  | nil => simp
  | cons b t ih => simp [List.getLast?_cons_cons, ih]

theorem processRevisionsFrom_final (af : List String)
    (revs : List (Option (List String))) (last : List (String × Nat))
    (k : String) :
    (listGet (processRevisionsFrom af last revs).1 k).getD 0 =
      match (revs.filterMap id).getLast? with
      | some matched => matched.count k
      | none => (listGet last k).getD 0 := by
  induction revs generalizing last with
  | nil => simp [processRevisionsFrom]
  | cons rev rest ih =>
    cases rev with
    | none =>
      show (listGet (processRevisionsFrom af last rest).1 k).getD 0 = _
      rw [ih last]
      simp [List.filterMap_cons]
    | some matched =>
      show (listGet (processRevisionsFrom af
          (countInstances matched (af ++ listKeys last)) rest).1 k).getD 0
        = _
      rw [ih]
      simp only [List.filterMap_cons, id]
      rw [getLast?_cons_elim]
      cases h : (rest.filterMap id).getLast? with
      | some m2 => simp [h]
      | none => simp [h, countInstances_total]

theorem initialLastHits_total (af : List String) (k : String) :
    (listGet (initialLastHits af) k).getD 0 = 0 := by
  unfold initialLastHits
  suffices hgen : ∀ m : List (String × Nat),
      (∀ a, (listGet m a).getD 0 = 0) →
      ∀ a, (listGet (af.foldl (fun m f => listSet m f 0) m) a).getD 0 = 0 by
    exact hgen [] (fun a => by simp [listGet]) k
  induction af with
  | nil => intro m hm a; simpa using hm a
  | cons f rest ih =>
    intro m hm a
    simp only [List.foldl_cons]
    apply ih
    intro a2
    by_cases hf : f = a2
    · subst hf
      rw [listGet_listSet_self]
      rfl
    · rw [listGet_listSet_ne m f a2 0 hf]
      exact hm a2

/-- Claim C4: over any page history processed by the talk-page scanner,
for every filter key the sum over all emitted events of +1 per `add` and
−1 per `remove` equals the number of matches of that filter in the
content of the final processed (non-null) revision; and a revision whose
main-slot content is null is skipped, contributing no events and no
change to the running per-filter counts. -/
theorem talkScanner_delta_sum (af : List String)
    (revs : List (Option (List String))) (k : String) :
    eventSum k (processRevisions af revs).2 =
      ((((revs.filterMap id).getLast?).getD []).count k : Int) ∧
    ∀ (last : List (String × Nat)) (rest : List (Option (List String))),
      processRevisionsFrom af last (none :: rest) =
        processRevisionsFrom af last rest := by
  constructor
  · rw [processRevisions, processRevisionsFrom_eventSum,
      processRevisionsFrom_final, initialLastHits_total]
    cases h : (revs.filterMap id).getLast? <;> simp [h]
  · intro last rest
    rfl

/-! ### Site registry (`src/util/WikimediaSiteMatrix.ts`)

`fetch()` awaits the catalogue download, then runs

```
this.matrix = matrix;
this.matrixDbNameIndex = {};
this.matrixHostnameIndex = {};
for (...) { ... new URL(site.url).hostname ... }
for (const special of matrix.specials) { ... }
```

The download is embedded as an `Except Unit SiteMatrixPayload` argument
(`error` = the network request rejected, so nothing below the `await`
runs).  `new URL(...)` can throw on a malformed url; it is embedded as
the `parseHostname` oracle, `none` aborting the indexing loop with the
indices built so far (the JS fields having already been mutated).  For a
language group the source stores `Object.assign(matrix[i].site,
{lang: matrix[i]})` — the group's site *array* — as the indexed value,
and for specials the site itself; `IndexedSite` mirrors that shape.
Only the payload entries used by `fetch` are carried. -/

structure SiteEntry where
  url : String
  dbname : String
  deriving DecidableEq, Repr

structure SiteLanguage where
  site : List SiteEntry
  deriving DecidableEq, Repr

structure SiteMatrixPayload where
  languages : List SiteLanguage
  specials : List SiteEntry
  deriving DecidableEq, Repr

inductive IndexedSite where
  | group (sites : List SiteEntry)
  | single (s : SiteEntry)
  deriving DecidableEq, Repr

abbrev SiteIndexes := List (String × IndexedSite) × List (String × IndexedSite)

structure SiteMatrixState where
  matrix : Option SiteMatrixPayload
  matrixDbNameIndex : Option (List (String × IndexedSite))
  matrixHostnameIndex : Option (List (String × IndexedSite))
  deriving DecidableEq, Repr

/-- Index the sites of one language group.  Per site the source first
runs `this.matrixDbNameIndex[site.dbname] = appliedSite;` and only the
*next* statement evaluates `new URL(site.url).hostname`, so on a `new
URL` throw the error carries the indices built so far *including* the
failing site's dbname entry (but not its hostname entry). -/
def indexGroupSites (parseHostname : String → Option String)
    (group : SiteLanguage) : List SiteEntry → SiteIndexes →
    Except SiteIndexes SiteIndexes
  | [], idx => .ok idx
  | site :: rest, idx =>
    let dbIdx := listSet idx.1 site.dbname (.group group.site)
    match parseHostname site.url with
    | none => .error (dbIdx, idx.2)
    | some host =>
      indexGroupSites parseHostname group rest
        (dbIdx, listSet idx.2 host (.group group.site))

def indexGroups (parseHostname : String → Option String) :
    List SiteLanguage → SiteIndexes → Except SiteIndexes SiteIndexes
  | [], idx => .ok idx
  | group :: rest, idx =>
    match indexGroupSites parseHostname group group.site idx with
    | .error idx2 => .error idx2
    | .ok idx2 => indexGroups parseHostname rest idx2

/-- Index the specials.  As in the language loop, the dbname-index
assignment precedes the `new URL` call, so a throw leaves the failing
special's dbname entry written. -/
def indexSpecials (parseHostname : String → Option String) :
    List SiteEntry → SiteIndexes → Except SiteIndexes SiteIndexes
  | [], idx => .ok idx
  | special :: rest, idx =>
    let dbIdx := listSet idx.1 special.dbname (.single special)
    match parseHostname special.url with
    | none => .error (dbIdx, idx.2)
    | some host =>
      indexSpecials parseHostname rest
        (dbIdx, listSet idx.2 host (.single special))

def indexAll (parseHostname : String → Option String)
    (payload : SiteMatrixPayload) : Except SiteIndexes SiteIndexes :=
  match indexGroups parseHostname payload.languages ([], []) with
  | .error idx => .error idx
  | .ok idx => indexSpecials parseHostname payload.specials idx

/-- `WikimediaSiteMatrix.fetch`, as a state transition: the returned
flag is whether the promise resolved (`false` = it rejected, either at
the network await — leaving the state untouched — or during indexing —
after the fields were already reassigned). -/
def fetchStep (parseHostname : String → Option String)
    (st : SiteMatrixState) (response : Except Unit SiteMatrixPayload) :
    SiteMatrixState × Bool :=
  match response with
  | .error _ => (st, false)
  | .ok payload =>
    match indexAll parseHostname payload with
    | .ok idx =>
      (⟨some payload, some idx.1, some idx.2⟩, true)
    | .error idx =>
      (⟨some payload, some idx.1, some idx.2⟩, false)

/-- Claim C6 counterexample: a refresh that fails during indexing (the
new payload's only site has a url on which `new URL` throws) does not
leave the prior snapshot intact: the cached matrix is replaced by the
new payload, and the dbname index — reset and rebuilt up to the throw,
the failing site's dbname entry having been written just before the
`new URL` call — no longer holds the prior `enwiki` entry. -/
theorem siteMatrix_refresh_not_atomic :
    (fetchStep
      (fun u => if u = "https://en.wikipedia.org"
        then some "en.wikipedia.org" else none)
      ⟨some ⟨[], [⟨"https://en.wikipedia.org", "enwiki"⟩]⟩,
       some [("enwiki", .single ⟨"https://en.wikipedia.org", "enwiki"⟩)],
       some [("en.wikipedia.org",
         .single ⟨"https://en.wikipedia.org", "enwiki"⟩)]⟩
      (.ok ⟨[], [⟨"not a url", "dewiki"⟩]⟩)).2 = false ∧
    (fetchStep
      (fun u => if u = "https://en.wikipedia.org"
        then some "en.wikipedia.org" else none)
      ⟨some ⟨[], [⟨"https://en.wikipedia.org", "enwiki"⟩]⟩,
       some [("enwiki", .single ⟨"https://en.wikipedia.org", "enwiki"⟩)],
       some [("en.wikipedia.org",
         .single ⟨"https://en.wikipedia.org", "enwiki"⟩)]⟩
      (.ok ⟨[], [⟨"not a url", "dewiki"⟩]⟩)).1.matrix
      = some ⟨[], [⟨"not a url", "dewiki"⟩]⟩ ∧
    some ⟨[], [⟨"not a url", "dewiki"⟩]⟩
      ≠ some (⟨[], [⟨"https://en.wikipedia.org", "enwiki"⟩]⟩
        : SiteMatrixPayload) ∧
    (fetchStep
      (fun u => if u = "https://en.wikipedia.org"
        then some "en.wikipedia.org" else none)
      ⟨some ⟨[], [⟨"https://en.wikipedia.org", "enwiki"⟩]⟩,
       some [("enwiki", .single ⟨"https://en.wikipedia.org", "enwiki"⟩)],
       some [("en.wikipedia.org",
         .single ⟨"https://en.wikipedia.org", "enwiki"⟩)]⟩
      (.ok ⟨[], [⟨"not a url", "dewiki"⟩]⟩)).1.matrixDbNameIndex
      = some [("dewiki", .single ⟨"not a url", "dewiki"⟩)] ∧
    listGet [("dewiki", IndexedSite.single ⟨"not a url", "dewiki"⟩)]
      "enwiki" = none := by
  refine ⟨rfl, rfl, by decide, rfl, by decide⟩

/-- Claim C6 (amended): if the network request itself rejects, `fetch`
leaves the whole prior state intact; but the replacement is not atomic —
once the download resolves, the cached matrix is overwritten with the
new payload (and the indices reset and rebuilt) no matter whether
indexing then succeeds or throws, so an indexing failure does not
preserve the prior snapshot. -/
theorem siteMatrix_refresh_failure_behavior
    (parseHostname : String → Option String) (st : SiteMatrixState)
    (payload : SiteMatrixPayload) :
    fetchStep parseHostname st (.error ()) = (st, false) ∧
    (fetchStep parseHostname st (.ok payload)).1.matrix = some payload := by
  constructor
  · rfl
  · cases h : indexAll parseHostname payload <;> simp [fetchStep, h]

/-! ### Revision store (`src/util/RevisionStore.ts`, `src/models/Revision.ts`)

The store is a `Map<number, Revision>` whose `set` is a warning no-op
unless the stream status is `EventSourceState.Open` (a stream that was
never constructed is folded into the non-open statuses).  A
non-privileged store installs a `mediawiki.revision-visibility-change`
handler: for a tracked, valid revision it builds
`Object.assign({}, oldRev, {comment: data.visibility.comment ?
oldRev.comment : '', user: data.visibility.user ? oldRev.user : '',
visibility: data.visibility})` — in the stream event, a visibility flag
is `true` when the field is *visible*, so a field is blanked exactly
when its flag is `false` — and stores the fresh object under the same
revid.  `Open` is renamed `opened` (`open` is reserved in Lean). -/

structure VisibilityFlags where
  text : Bool
  user : Bool
  comment : Bool
  deriving DecidableEq, Repr

structure RevisionPage where
  pageid : Nat
  ns : Int
  title : String
  deriving DecidableEq, Repr

structure ExpandedRevision where
  revid : Nat
  parentid : Nat
  minor : Bool
  user : String
  timestamp : String
  size : Nat
  comment : String
  tags : List String
  page : RevisionPage
  diffsize : Int
  parsedcomment : Option String
  visibility : Option VisibilityFlags
  deriving DecidableEq, Repr

inductive Revision where
  | expanded (e : ExpandedRevision)
  | missing (revid : Nat)
  deriving DecidableEq, Repr

/-- Modelled from the spec: `isValidRevision` is imported from
`models/Revision`, whose provided source lacks its body; per the spec's
data model, `{revid, missing = true}` is "a discriminator over the
revision sum type", so a revision is valid exactly when it is not a
missing marker. -/
def isValidRevision : Revision → Bool
  | .expanded _ => true
  | .missing _ => false

inductive EventSourceState where
  | connecting
  | opened
  | closed
  deriving DecidableEq, Repr

structure RevisionStoreState where
  entries : List (Nat × Revision)
  streamStatus : EventSourceState
  deriving DecidableEq, Repr

/-- `RevisionStore.set`: a warning no-op unless the stream is open. -/
def rsSet (st : RevisionStoreState) (key : Nat) (value : Revision) :
    RevisionStoreState :=
  if st.streamStatus = .opened then
    { st with entries := listSet st.entries key value }
  else st

/-- The object the visibility-change handler builds from the old
revision and the event's visibility snapshot. -/
def rewriteVisibility (r : Revision) (vis : VisibilityFlags) : Revision :=
  match r with
  | .expanded e =>
    .expanded
      { e with
        comment := if vis.comment then e.comment else "",
        user := if vis.user then e.user else "",
        visibility := some vis }
  | .missing revid => .missing revid

/-- The `mediawiki.revision-visibility-change` handler of a
non-privileged store. -/
def onVisibilityChange (st : RevisionStoreState) (revId : Nat)
    (vis : VisibilityFlags) : RevisionStoreState :=
  match listGet st.entries revId with
  | none => st
  | some oldRev =>
    if isValidRevision oldRev then
      rsSet st revId (rewriteVisibility oldRev vis)
    else st

/-- Claim C7: on a visibility-change event for a revid whose stored
entry is a (valid) revision, the non-privileged store replaces the
entry with a freshly built object whose `comment` and `user` are blanked
exactly when the event's corresponding visibility flag marks the field
hidden (`false` in the stream event means hidden), with the event's
visibility snapshot attached; other revids are untouched, and an event
for an untracked revid leaves the store unchanged.  (Object identity is
a JS-heap notion; the store's `set`-with-a-new-object is embedded as
entry replacement, and the new entry provably differs from the old one
whenever the attached snapshot is new.) -/
theorem revisionStore_visibility_change (st : RevisionStoreState)
    (revId : Nat) (vis : VisibilityFlags) (e : ExpandedRevision)
    (hopen : st.streamStatus = .opened)
    (hget : listGet st.entries revId = some (.expanded e)) :
    listGet (onVisibilityChange st revId vis).entries revId =
      some (.expanded
        { e with
          comment := if vis.comment then e.comment else "",
          user := if vis.user then e.user else "",
          visibility := some vis }) ∧
    (∀ r2, r2 ≠ revId →
      listGet (onVisibilityChange st revId vis).entries r2 =
        listGet st.entries r2) ∧
    (e.visibility ≠ some vis →
      listGet (onVisibilityChange st revId vis).entries revId ≠
        some (.expanded e)) ∧
    (∀ (st2 : RevisionStoreState) (r3 : Nat),
      listGet st2.entries r3 = none →
        onVisibilityChange st2 r3 vis = st2) := by
  have hstep : onVisibilityChange st revId vis =
      { st with
        entries :=
          listSet st.entries revId
            (rewriteVisibility (.expanded e) vis) } := by
    unfold onVisibilityChange
    rw [hget]
    simp [isValidRevision, rsSet, hopen]
  refine ⟨?_, ?_, ?_, ?_⟩
  · rw [hstep]
    show listGet (listSet st.entries revId _) revId = _
    rw [listGet_listSet_self]
    rfl
  · intro r2 hne
    rw [hstep]
    show listGet (listSet st.entries revId _) r2 = _
    exact listGet_listSet_ne st.entries revId r2 _ (fun hc => hne hc.symm)
  · intro hvis
    rw [hstep]
    show listGet (listSet st.entries revId _) revId ≠ _
    rw [listGet_listSet_self]
    intro hc
    simp only [rewriteVisibility, Option.some.injEq,
      Revision.expanded.injEq] at hc
    exact hvis (by
      have h2 := congrArg ExpandedRevision.visibility hc
      simpa using h2.symm)
  · intro st2 r3 hnone
    unfold onVisibilityChange
    rw [hnone]

/-- Claim C7 witness: a store tracking revision 100 with an open stream,
receiving an event that hides `user` and `comment` (`text` stays
visible). -/
theorem revisionStore_visibility_change_witness :
    listGet (onVisibilityChange
        ⟨[(100, .expanded ⟨100, 99, false, "Alice", "t0", 10, "hi", [],
          ⟨1, 0, "T"⟩, 2, none, none⟩)], .opened⟩ 100
        ⟨true, false, false⟩).entries 100 =
      some (.expanded ⟨100, 99, false, "", "t0", 10, "", [],
        ⟨1, 0, "T"⟩, 2, none, some ⟨true, false, false⟩⟩) ∧
    (∀ r2, r2 ≠ 100 →
      listGet (onVisibilityChange
          ⟨[(100, .expanded ⟨100, 99, false, "Alice", "t0", 10, "hi", [],
            ⟨1, 0, "T"⟩, 2, none, none⟩)], .opened⟩ 100
          ⟨true, false, false⟩).entries r2 =
        listGet [(100, Revision.expanded ⟨100, 99, false, "Alice", "t0",
          10, "hi", [], ⟨1, 0, "T"⟩, 2, none, none⟩)] r2) ∧
    ((⟨100, 99, false, "Alice", "t0", 10, "hi", [], ⟨1, 0, "T"⟩, 2, none,
        none⟩ : ExpandedRevision).visibility
          ≠ some ⟨true, false, false⟩ →
      listGet (onVisibilityChange
          ⟨[(100, .expanded ⟨100, 99, false, "Alice", "t0", 10, "hi", [],
            ⟨1, 0, "T"⟩, 2, none, none⟩)], .opened⟩ 100
          ⟨true, false, false⟩).entries 100 ≠
        some (.expanded ⟨100, 99, false, "Alice", "t0", 10, "hi", [],
          ⟨1, 0, "T"⟩, 2, none, none⟩)) ∧
    (∀ (st2 : RevisionStoreState) (r3 : Nat),
      listGet st2.entries r3 = none →
        onVisibilityChange st2 r3 ⟨true, false, false⟩ = st2) :=
  revisionStore_visibility_change
    ⟨[(100, .expanded ⟨100, 99, false, "Alice", "t0", 10, "hi", [],
      ⟨1, 0, "T"⟩, 2, none, none⟩)], .opened⟩ 100 ⟨true, false, false⟩
    ⟨100, 99, false, "Alice", "t0", 10, "hi", [], ⟨1, 0, "T"⟩, 2, none,
      none⟩ rfl (by decide)

/-! ### Revision controller
(`src/routes/v1/revisions/MediaWikiRevisionController.ts`)

`getRevisions` receives the requested ids as JS values — strings (GET
query / pipe-delimited POST string) or raw JSON numbers (POST arrays) —
and first filters with `v => !!v && (typeof v === 'number' || v.length >
0)`: the empty string and the *number 0* are removed by JS truthiness.
Then: empty list → 422 `revisions-missing`; more than 50 on GET → 403
`method-limited`; any token with `isNaN(+v)` → 422 `badinteger`.  Each
surviving id with `+v < 1` is answered inline as `{revid, invalid:
true}`; otherwise the id is served from the revision store or queued
into the expander.  String coercion `+v` is embedded as `String.toInt?`
(they agree on the canonical signed-decimal numerals at issue; the JS
quirk `+"" === 0` is unreachable, `""` being filtered first).  The
expander round-trip is embedded as a total `expand` oracle — the 500
`expander-timeout` race is orthogonal to this claim. -/

inductive ReqToken where
  | num (n : Int)
  | str (s : String)
  deriving DecidableEq, Repr

/-- The cleanup predicate `v => !!v && (typeof v === 'number' || v.length > 0)`. -/
def cleanupKeep : ReqToken → Bool
  | .num n => decide (n ≠ 0)
  | .str s => decide (0 < s.length)

def digitsValAux : List Char → Nat → Option Nat
  | [], acc => some acc
  | c :: rest, acc =>
    if c.isDigit then digitsValAux rest (acc * 10 + (c.toNat - 48))
    else none

/-- The numeric coercion `+v` on a string, restricted to the
optional-minus decimal numerals at issue; any other string is `NaN`
(`none`).  (The JS quirk `+"" === 0` is unreachable: the empty string is
removed by the cleanup filter before coercion.) -/
def jsStringToNumber (s : String) : Option Int :=
  match s.data with
  | [] => none
  | '-' :: rest =>
    match rest with
    | [] => none
    | _ => (digitsValAux rest 0).map (fun n => -(n : Int))
  | cs => (digitsValAux cs 0).map (fun n => (n : Int))

/-- The numeric coercion `+v` (`none` = `NaN`). -/
def tokenNum : ReqToken → Option Int
  | .num n => some n
  | .str s => jsStringToNumber s

inductive RevOut where
  | invalid (revid : Int)
  | rev (r : Revision)
  deriving DecidableEq, Repr

/-- Resolution of one id once validation has passed: ids below 1 get the
inline `{revid, invalid: true}` marker; others are served from the
store, falling back to the expander. -/
def resolveRevision (store : Int → Option Revision)
    (expand : Int → Revision) (n : Int) : RevOut :=
  if n < 1 then .invalid n
  else
    match store n with
    | some r => .rev r
    | none => .rev (expand n)

inductive GetRevisionsResponse where
  | errMissing
  | errLimited
  | errBadInteger
  | ok (revisions : List (Int × RevOut))
  deriving DecidableEq, Repr

/-- `MediaWikiRevisionController.getRevisions` (without the timeout
race; `isGet` is `req.method === 'GET'`). -/
def getRevisions (store : Int → Option Revision)
    (expand : Int → Revision) (isGet : Bool) (tokens : List ReqToken) :
    GetRevisionsResponse :=
  let toks := tokens.filter cleanupKeep
  if toks.length = 0 then .errMissing
  else if 50 < toks.length ∧ isGet = true then .errLimited
  else if toks.any (fun t => (tokenNum t).isNone) then .errBadInteger
  else
    .ok (toks.map fun t =>
      let n := (tokenNum t).getD 0
      (n, resolveRevision store expand n))

/-- Claim C10 counterexample: an id supplied as the JSON number 0 is not
mapped to `{revid, invalid: true}` — JS truthiness drops it during
cleanup.  A POST body whose only id is the number 0 is rejected 422
`revisions-missing` (an error, contradicting the claim), and in a POST
body `[0, 5]` the id 0 is simply absent from the 200 response. -/
theorem getRevisions_number_zero_dropped :
    getRevisions (fun _ => none) (fun _ => .missing 0) false [.num 0]
      = .errMissing ∧
    getRevisions (fun _ => none) (fun _ => .missing 0) false
        [.num 0, .num 5]
      = .ok [(5, .rev (.missing 0))] := by
  refine ⟨rfl, rfl⟩

/-- Claim C10 (amended): a requested id that survives the truthiness
cleanup (any non-empty string token, any non-zero JSON number) and
parses as a number below 1 is mapped in the 200 response to
`{revid, invalid: true}` rather than rejected, and every other
surviving id is looked up in the store or expanded; but an id supplied
as the JSON number 0 is removed by the cleanup before validation, so it
never appears in the response (and a body of only such ids is rejected
422 `revisions-missing`). -/
theorem getRevisions_negative_invalid (store : Int → Option Revision)
    (expand : Int → Revision) (isGet : Bool) (tokens : List ReqToken)
    (hne : (tokens.filter cleanupKeep).length ≠ 0)
    (hlim : ¬(50 < (tokens.filter cleanupKeep).length ∧ isGet = true))
    (hparse : ∀ t ∈ tokens.filter cleanupKeep, (tokenNum t).isSome) :
    getRevisions store expand isGet tokens =
      .ok ((tokens.filter cleanupKeep).map fun t =>
        let n := (tokenNum t).getD 0
        (n, resolveRevision store expand n)) ∧
    (∀ t ∈ tokens.filter cleanupKeep, ∀ n, tokenNum t = some n →
      (n < 1 →
        (n, RevOut.invalid n) ∈ ((tokens.filter cleanupKeep).map fun t =>
          let n := (tokenNum t).getD 0
          (n, resolveRevision store expand n))) ∧
      (1 ≤ n →
        resolveRevision store expand n =
          (match store n with
           | some r => .rev r
           | none => .rev (expand n)))) ∧
    ReqToken.num 0 ∉ tokens.filter cleanupKeep := by
  have hany : (tokens.filter cleanupKeep).any
      (fun t => (tokenNum t).isNone) = false := by
    rw [List.any_eq_false]
    intro t ht
    simp [Option.isNone_iff_eq_none]
    exact Option.isSome_iff_ne_none.1 (hparse t ht)
  refine ⟨?_, ?_, ?_⟩
  · unfold getRevisions
    rw [if_neg hne, if_neg hlim]
    simp only [hany, Bool.false_eq_true, if_false]
  · intro t ht n hn
    constructor
    · intro hlt
      refine List.mem_map.2 ⟨t, ht, ?_⟩
      simp [hn, resolveRevision, hlt]
    · intro hge
      have hnlt : ¬n < 1 := by omega
      simp [resolveRevision, hnlt]
  · intro hc
    have := List.mem_filter.1 hc
    simp [cleanupKeep] at this

/-- Claim C10 witness: the string `"0"`, the number −3 and the number 7
on a GET request with an empty store. -/
theorem getRevisions_negative_invalid_witness :
    getRevisions (fun _ => none) (fun _ => .missing 0) true
        [.str "0", .num (-3), .num 7] =
      .ok (([.str "0", .num (-3), .num 7].filter cleanupKeep).map fun t =>
        let n := (tokenNum t).getD 0
        (n, resolveRevision (fun _ => none) (fun _ => .missing 0) n)) ∧
    (∀ t ∈ [ReqToken.str "0", .num (-3), .num 7].filter cleanupKeep,
      ∀ n, tokenNum t = some n →
      (n < 1 →
        (n, RevOut.invalid n) ∈
          (([ReqToken.str "0", .num (-3), .num 7].filter
            cleanupKeep).map fun t =>
              let n := (tokenNum t).getD 0
              (n, resolveRevision (fun _ => none)
                (fun _ => .missing 0) n))) ∧
      (1 ≤ n →
        resolveRevision (fun _ => none) (fun _ => .missing 0) n =
          (match (fun (_ : Int) => (none : Option Revision)) n with
           | some r => .rev r
           | none => .rev ((fun _ => .missing 0) n)))) ∧
    ReqToken.num 0 ∉ [ReqToken.str "0", .num (-3), .num 7].filter
      cleanupKeep :=
  getRevisions_negative_invalid (fun _ => none) (fun _ => .missing 0)
    true [.str "0", .num (-3), .num 7] (by decide) (by decide)
    (by decide)

end Dispatch
